import Mathlib

/-!
Verification of the CDR scheduler's reconciliation controller, execution
dispatcher, poll loop and zombie-recovery sweep, shallowly embedded from
`cdr_scheduler.py` (the `Control` class and its nested `Job` class) and
`Scheduler/cdr_scheduler.py` (the `CDRScheduler` class).

External collaborators are modelled at their boundary:
* `json.loads` is an arbitrary decoder `String → Option Sched`
  (`none` means the call raises);
* the APScheduler engine is modelled by the trace of mutating calls the
  controller issues to it (`Call`);
* the database is modelled by the list of `scheduled_job` rows read by a
  pass, with row deletions recorded as `Call.deleteRow` trace entries;
* the ndscheduler datastore used by the zombie sweep is modelled by a list
  of execution rows updated in place.
-/

set_option autoImplicit false

deriving instance DecidableEq for Except

namespace CdrScheduler

/-- Parsed cron-style schedule dictionary (the value `json.loads` returns for
the `schedule` column), as a key/value association list. -/
abbrev Sched := List (String × String)

/-- One row of the `scheduled_job` table: id, name, implementing class,
optional raw JSON schedule, enabled flag, raw JSON options.  `Control.Job`
equality (`__eq__`) is tuple equality of the raw row, i.e. field-by-field
equality of this structure. -/
structure Row where
  id : Nat
  name : String
  job_class : String
  schedule : Option String
  enabled : Bool
  opts : String
deriving DecidableEq, Repr

/-- The controller's in-memory record for a registered job: the `Control.Job`
object kept in the `jobs` dictionary, i.e. its raw row together with the
cached parsed schedule (`Job.schedule` is computed once and memoised; handles
are only ever stored for jobs whose schedule parsed to a truthy dict). -/
structure Handle where
  row : Row
  sched : Sched
deriving DecidableEq, Repr

/-- The controller's `jobs` dictionary, keyed by job id. -/
abbrev Jobs := List (Nat × Handle)

/-- A mutating call issued by the controller: to the APScheduler engine
(`add_job` with a cron trigger, `add_job` for a one-off run, `modify_job`,
`reschedule_job`, `pause_job`, `resume_job`, `remove_job`) or to the job
store (`delete_job`).  A one-off `add_job` carries no engine id in the
source, but its callback `self.run` is closed over the row, so we tag it
with the row's id as well as the display name passed to the engine. -/
inductive Call where
  | addCron (id : Nat) (sched : Sched) (suspended : Bool)
  | addOneShot (id : Nat) (name : String)
  | modifyJob (id : Nat)
  | rescheduleJob (id : Nat) (sched : Sched)
  | pauseJob (id : Nat)
  | resumeJob (id : Nat)
  | removeJob (id : Nat)
  | deleteRow (id : Nat)
deriving DecidableEq, Repr

/-- The id of the job a call concerns. -/
def callId : Call → Nat
  | .addCron i _ _ => i
  | .addOneShot i _ => i
  | .modifyJob i => i
  | .rescheduleJob i _ => i
  | .pauseJob i => i
  | .resumeJob i => i
  | .removeJob i => i
  | .deleteRow i => i

/-- Whether a call is one of the scheduler-engine synchronisation operations
`addRecurring/modify/reschedule/pause/resume/remove` (one-off dispatches and
store deletions are not in this set). -/
def Call.isSyncMutation : Call → Bool
  | .addCron _ _ _ => true
  | .modifyJob _ => true
  | .rescheduleJob _ _ => true
  | .pauseJob _ => true
  | .resumeJob _ => true
  | .removeJob _ => true
  | .addOneShot _ _ => false
  | .deleteRow _ => false

/-- Dictionary lookup `self.__control.jobs.get(id)`. -/
def lookupJob (jobs : Jobs) (i : Nat) : Option Handle :=
  (jobs.find? (fun p => p.1 == i)).map Prod.snd

/-- Dictionary removal `del self.__control.jobs[id]`. -/
def eraseJob (jobs : Jobs) (i : Nat) : Jobs :=
  jobs.filter (fun p => !(p.1 == i))

/-- Dictionary update `self.__control.jobs[id] = self`. -/
def insertJob (jobs : Jobs) (i : Nat) (h : Handle) : Jobs :=
  eraseJob jobs i ++ [(i, h)]

/-- The keys of the `jobs` dictionary. -/
def jobKeys (jobs : Jobs) : List Nat :=
  jobs.map Prod.fst

/-- The `Control.Job.schedule` property: `None` stays `None`, a falsy raw
string is kept as-is (falsy), a truthy raw string is fed to `json.loads`,
which either raises (`.error`) or yields a dict; a falsy (empty) dict and
the falsy raw values are all collapsed to `none`, since `register` only
ever tests this value for truthiness or compares it against another parsed
schedule. -/
def jobSchedule (parse : String → Option Sched) (r : Row) :
    Except Unit (Option Sched) :=
  match r.schedule with
  | none => .ok none
  | some s =>
    if s = "" then .ok none
    else
      match parse s with
      | none => .error ()
      | some d => .ok (if d = [] then none else some d)

/-- The engine calls made by the modified-job branch of `register`: an
unconditional `modify_job`, a `reschedule_job` when the parsed schedule
changed, and a `resume_job`/`pause_job` when the `enabled` flag flipped. -/
def modCalls (old : Handle) (r : Row) (d : Sched) : List Call :=
  [Call.modifyJob r.id]
    ++ (if old.sched = d then [] else [Call.rescheduleJob r.id d])
    ++ (if !old.row.enabled && r.enabled then [Call.resumeJob r.id]
        else if !r.enabled && old.row.enabled then [Call.pauseJob r.id]
        else [])

/-- `Control.Job.register`, with the exception it may raise made explicit:
the only raise point is parsing the schedule JSON, which happens before any
mutation, so the error case leaves the dictionary untouched and issues no
calls.  Returns the updated `jobs` dictionary and the calls issued, in
source order. -/
def register (parse : String → Option Sched) (jobs : Jobs) (r : Row) :
    Except Unit (Jobs × List Call) :=
  match lookupJob jobs r.id with
  | some old =>
    if r = old.row then
      .ok (jobs, [])
    else
      match jobSchedule parse r with
      | .error _ => .error ()
      | .ok none =>
        if r.enabled then
          .ok (eraseJob jobs r.id,
               [Call.removeJob r.id, Call.addOneShot r.id r.name,
                Call.deleteRow r.id])
        else
          .ok (eraseJob jobs r.id, [Call.removeJob r.id])
      | .ok (some d) =>
        .ok (insertJob jobs r.id ⟨r, d⟩, modCalls old r d)
  | none =>
    match jobSchedule parse r with
    | .error _ => .error ()
    | .ok (some d) =>
      .ok (insertJob jobs r.id ⟨r, d⟩, [Call.addCron r.id d (!r.enabled)])
    | .ok none =>
      if r.enabled then
        .ok (jobs, [Call.addOneShot r.id r.name, Call.deleteRow r.id])
      else
        .ok (jobs, [])

/-- The row loop of `Control.__refresh_jobs`: each row is registered in
order, a raised exception is logged and that row skipped (the dictionary is
unchanged by a raising row). -/
def refreshRows (parse : String → Option Sched) :
    List Row → Jobs → Jobs × List Call
  | [], jobs => (jobs, [])
  | r :: rest, jobs =>
    match register parse jobs r with
    | .ok (jobs', cs) =>
      let res := refreshRows parse rest jobs'
      (res.1, cs ++ res.2)
    | .error _ => refreshRows parse rest jobs

/-- The ids swept at the end of `__refresh_jobs`: `set(self.jobs) - found`,
the dictionary keys whose row was not seen in this pass. -/
def sweepIds (jobs : Jobs) (found : List Nat) : List Nat :=
  (jobKeys jobs).dedup.filter (fun i => decide (i ∉ found))

/-- `Control.__refresh_jobs`: register every row (recording every row's id
in `found` before its registration is attempted, so even a raising row is
counted as seen), then unregister and drop every job whose id was not
seen. -/
def refresh_jobs (parse : String → Option Sched) (store : List Row)
    (jobs : Jobs) : Jobs × List Call :=
  let found := store.map Row.id
  let next := refreshRows parse store jobs
  let gone := sweepIds next.1 found
  (next.1.filter (fun p => decide (p.1 ∈ found)),
   next.2 ++ gone.map Call.removeJob)

/-- The job-store rows that survive the pass when every `delete_job` issued
by the pass succeeds (`DELETE FROM scheduled_job WHERE id = ?`). -/
def applyDeletes (calls : List Call) (store : List Row) : List Row :=
  store.filter (fun r => decide (Call.deleteRow r.id ∉ calls))

/-- The per-row condition under which a registration decision is silent:
either the stored handle's row equals the fresh row (the `self == old`
fast path), or the row is malformed while a handle exists (registration
raises before mutating anything), or there is no handle and the row's
schedule is not a truthy dict (one-off or ignored row). -/
def QuietAt (parse : String → Option Sched) (jobs : Jobs) (r : Row) : Prop :=
  match lookupJob jobs r.id with
  | some h => h.row = r ∨ jobSchedule parse r = .error ()
  | none => ∀ d, jobSchedule parse r ≠ .ok (some d)

/-- The environment of one iteration of the poll loop in `Control.run`:
whether another thread set the `stopped` flag while this iteration was
sleeping, whether a `KeyboardInterrupt`/`SystemExit` arrived during the
sleep, and the result of this iteration's read of the `scheduled_job`
table (`.error` means the read raised, e.g. the store was unreachable). -/
structure TickInput where
  flagDuringSleep : Bool
  interrupt : Bool
  read : Except Unit (List Row)
deriving Repr

/-- Observable events of the poll loop: a completed reconciliation pass
with the calls it issued, the single `scheduler.shutdown()` on a clean
exit, and an exception propagating out of `run`. -/
inductive LoopEv where
  | passEv (calls : List Call)
  | shutdownEv
  | crashEv
deriving DecidableEq, Repr

/-- How the poll loop ended: a clean stop (the `stopped` flag was observed
and `shutdown` ran), an exception propagating out of `run`, or the supplied
iteration environments running out with the loop still live. -/
inductive LoopOutcome where
  | cleanStop
  | crashed
  | ranOut
deriving DecidableEq, Repr

/-- The poll loop of `Control.run`:  `while not self.stopped:` checks the
flag at the top of each iteration, before the sleep; the body sleeps and
then refreshes inside a `try` that catches only `KeyboardInterrupt` and
`SystemExit` (which call `self.stop()`); any other exception — in
particular a failed store read — propagates out of the loop, so no
shutdown happens and no further iteration runs. -/
def run (parse : String → Option Sched) :
    Bool → Jobs → List TickInput → Jobs × LoopOutcome × List LoopEv
  | true, jobs, _ => (jobs, .cleanStop, [.shutdownEv])
  | false, jobs, [] => (jobs, .ranOut, [])
  | false, jobs, t :: rest =>
    if t.interrupt then
      run parse true jobs rest
    else
      match t.read with
      | .error _ => (jobs, .crashed, [.crashEv])
      | .ok store =>
        let res := refresh_jobs parse store jobs
        let next := run parse t.flagDuringSleep res.1 rest
        (next.1, next.2.1, .passEv res.2 :: next.2.2)

/-- Split a character list at the first dot, returning the parts before
and after it, or `none` when no dot occurs. -/
def splitDot : List Char → Option (List Char × List Char)
  | [] => none
  | c :: cs =>
    if c = '.' then some ([], cs)
    else
      match splitDot cs with
      | none => none
      | some mc => some (c :: mc.1, mc.2)

/-- `self.job_class.split(".", 1)` unpacked into two names: `none` when the
string contains no dot (the unpacking raises `ValueError`). -/
def splitClass (s : String) : Option (String × String) :=
  match splitDot s.data with
  | none => none
  | some mc => some (⟨mc.1⟩, ⟨mc.2⟩)

/-- The single log line `Control.Job.run` emits for one firing: the success
path logs the start time, the elapsed time and the job name; the exception
path logs the job name and the start time. -/
inductive LogLine where
  | started (startT : Nat) (spent : Nat) (name : String)
  | failed (name : String) (startT : Nat)
deriving DecidableEq, Repr

/-- The elapsed-time value a log line carries, if any. -/
def LogLine.elapsedOf : LogLine → Option Nat
  | .started _ spent _ => some spent
  | .failed _ _ => none

/-- The body of the `try` block of `Control.Job.run`: split the class
string (raises when there is no dot), decode the options JSON (raises on
malformed JSON), then import the module, look up the class, construct the
implementation and run it — those four steps live in external code and the
job implementation, modelled by `exec`. -/
def runBody (parse : String → Option Sched)
    (exec : String → String → Sched → Except Unit Unit) (r : Row) :
    Except Unit Unit :=
  match splitClass r.job_class with
  | none => .error ()
  | some mc =>
    match parse r.opts with
    | none => .error ()
    | some opts => exec mc.1 mc.2 opts

/-- `Control.Job.run`, the callback handed to the engine: the whole body is
wrapped in `try ... except Exception`, so every dispatch produces exactly a
log line and never re-raises. -/
def jobRun (parse : String → Option Sched)
    (exec : String → String → Sched → Except Unit Unit) (r : Row)
    (startT endT : Nat) : LogLine :=
  match runBody parse exec r with
  | .ok _ => .started startT (endT - startT) r.name
  | .error _ => .failed r.name startT

/-- A sequence of callback firings performed by the engine's workers: each
firing runs `jobRun` on its row and timing, independently of the others'
outcomes. -/
def fireAll (parse : String → Option Sched)
    (exec : String → String → Sched → Except Unit Unit)
    (cbs : List (Row × Nat × Nat)) : List LogLine :=
  cbs.map (fun t => jobRun parse exec t.1 t.2.1 t.2.2)

/-- Execution states of the ndscheduler execution-history table. -/
inductive ExecState where
  | scheduled
  | running
  | success
  | failed
deriving DecidableEq, Repr

/-- One row of the execution-history table consumed by the zombie sweep. -/
structure ExecRow where
  eid : Nat
  job_id : Nat
  state : ExecState
  description : String
  scheduled_time : Nat
deriving DecidableEq, Repr

/-- The fixed description the sweep writes. -/
def zombieDesc : String := "marking zombie run as failed"

/-- `datastore.update_execution(eid, state=..., description=...)`: set the
two named fields on the row with the given execution id. -/
def update_execution (table : List ExecRow) (e : Nat) (st : ExecState)
    (d : String) : List ExecRow :=
  table.map (fun r => if r.eid = e then { r with state := st, description := d } else r)

/-- The execution ids selected by the sweep's query:
`select([eid_col]).where(state_col == running)`. -/
def runningEids (table : List ExecRow) : List Nat :=
  (table.filter (fun r => decide (r.state = .running))).map ExecRow.eid

/-- `CDRScheduler.fix_zombies`: mark every execution currently recorded as
running as failed, with the fixed description. -/
def fix_zombies (table : List ExecRow) : List ExecRow :=
  (runningEids table).foldl
    (fun t e => update_execution t e .failed zombieDesc) table

/-- The update loop of `fix_zombies` with the possibility that an
individual `update_execution` raises (`updFails` says which execution ids
fail to update).  The loop has no exception handling, so the first failure
propagates, carrying the table as corrected so far. -/
def zombieSweepGo (updFails : Nat → Bool) :
    List Nat → List ExecRow → Except (List ExecRow) (List ExecRow)
  | [], t => .ok t
  | e :: es, t =>
    if updFails e then .error t
    else zombieSweepGo updFails es (update_execution t e .failed zombieDesc)

/-- `fix_zombies` in an environment where individual row updates may
raise. -/
def fix_zombiesE (updFails : Nat → Bool) (table : List ExecRow) :
    Except (List ExecRow) (List ExecRow) :=
  zombieSweepGo updFails (runningEids table) table

/-- Startup events of `CDRScheduler.start_scheduler`. -/
inductive StartupEv where
  | zombieSweep
  | engineStart
deriving DecidableEq, Repr

/-- `CDRScheduler.start_scheduler`: run the zombie sweep, then start the
underlying ndscheduler engine. -/
def start_scheduler (table : List ExecRow) : List ExecRow × List StartupEv :=
  (fix_zombies table, [.zombieSweep, .engineStart])

/-- A concrete decoder standing in for `json.loads` in concrete runs: the
string `"bad"` is malformed, any other string decodes to a one-entry
dict. -/
def demoParse : String → Option Sched :=
  fun s => if s = "bad" then none else some [("hour", s)]

/-- A recurring enabled job row. -/
def rowCron : Row := ⟨1, "cronjob", "mod.Cls", some "sch", true, "x"⟩

/-- The same row with the `enabled` flag cleared. -/
def rowCronOff : Row := ⟨1, "cronjob", "mod.Cls", some "sch", false, "x"⟩

/-- An enabled row without a schedule: a one-off run request. -/
def rowShot : Row := ⟨2, "oneshot", "mod.Shot", none, true, "x"⟩

/-- A disabled row without a schedule: kept but ignored. -/
def rowIdle : Row := ⟨3, "idle", "mod.Idle", none, false, "x"⟩

/-- A row whose schedule JSON fails to parse. -/
def rowBad : Row := ⟨4, "badsched", "mod.Bad", some "bad", true, "x"⟩

/-- The handle stored for `rowCron` once registered under `demoParse`. -/
def hCron : Handle := ⟨rowCron, [("hour", "sch")]⟩

/-- A malformed fresh row for a job that is live in the scheduler. -/
def rowLiveBad : Row := ⟨5, "live", "mod.Live", some "bad", true, "x"⟩

/-- The live handle for job 5, registered from an earlier good row. -/
def hLive : Handle := ⟨⟨5, "live", "mod.Live", some "sch", true, "x"⟩, [("hour", "sch")]⟩

/-- A job store exercising all registration branches: a recurring job, a
one-off request, an ignored disabled row and a malformed row. -/
def demoStore : List Row := [rowCron, rowShot, rowIdle, rowBad]

/-- An execution history with one zombie row and one finished row. -/
def demoExecs : List ExecRow :=
  [⟨1, 1, .running, "", 0⟩, ⟨2, 1, .success, "ok", 0⟩]

/-- An execution history with two zombie rows. -/
def demoZombies : List ExecRow :=
  [⟨1, 1, .running, "", 0⟩, ⟨2, 1, .running, "", 0⟩]

/-- An execution history with three zombie rows. -/
def demoZombies3 : List ExecRow :=
  [⟨1, 1, .running, "", 0⟩, ⟨2, 1, .running, "", 0⟩, ⟨3, 1, .running, "", 0⟩]

/-! Dictionary lemmas. -/

theorem lookupJob_cons (p : Nat × Handle) (jobs : Jobs) (i : Nat) :
    lookupJob (p :: jobs) i = if p.1 = i then some p.2 else lookupJob jobs i := by
  by_cases h : p.1 = i
  · simp [lookupJob, List.find?_cons_of_pos, h]
  · simp [lookupJob, List.find?_cons_of_neg, h]

theorem lookupJob_eraseJob_self (jobs : Jobs) (i : Nat) :
    lookupJob (eraseJob jobs i) i = none := by
  induction jobs with
  | nil => rfl
  | cons p t ih =>
    by_cases h : p.1 = i
    · simpa [eraseJob, List.filter_cons, h] using ih
    · simpa [eraseJob, List.filter_cons, h, lookupJob_cons] using ih

theorem lookupJob_nil (i : Nat) : lookupJob [] i = none := rfl

theorem eraseJob_cons (p : Nat × Handle) (t : Jobs) (i : Nat) :
    eraseJob (p :: t) i = if p.1 = i then eraseJob t i else p :: eraseJob t i := by
  by_cases h : p.1 = i <;> simp [eraseJob, List.filter_cons, h]

theorem lookupJob_eraseJob_ne (jobs : Jobs) (i j : Nat) (hne : j ≠ i) :
    lookupJob (eraseJob jobs i) j = lookupJob jobs j := by
  induction jobs with
  | nil => rfl
  | cons p t ih =>
    rw [eraseJob_cons]
    by_cases h : p.1 = i
    · rw [if_pos h, ih, lookupJob_cons]
      have hpj : p.1 ≠ j := fun hpj => hne (by rw [← hpj, h])
      rw [if_neg hpj]
    · rw [if_neg h, lookupJob_cons, lookupJob_cons]
      by_cases hpj : p.1 = j
      · rw [if_pos hpj, if_pos hpj]
      · rw [if_neg hpj, if_neg hpj, ih]

theorem lookupJob_append_none (l1 l2 : Jobs) (i : Nat)
    (h : lookupJob l1 i = none) :
    lookupJob (l1 ++ l2) i = lookupJob l2 i := by
  induction l1 with
  | nil => rfl
  | cons p t ih =>
    by_cases hp : p.1 = i
    · simp [lookupJob_cons, hp] at h
    · simp [lookupJob_cons, hp] at h ⊢
      exact ih h

theorem lookupJob_append_some (l1 l2 : Jobs) (i : Nat) (h : Handle)
    (hh : lookupJob l1 i = some h) :
    lookupJob (l1 ++ l2) i = some h := by
  induction l1 with
  | nil => simp [lookupJob] at hh
  | cons p t ih =>
    by_cases hp : p.1 = i
    · simp [lookupJob_cons, hp] at hh ⊢
      exact hh
    · simp [lookupJob_cons, hp] at hh ⊢
      exact ih hh

theorem lookupJob_insertJob_self (jobs : Jobs) (i : Nat) (h : Handle) :
    lookupJob (insertJob jobs i h) i = some h := by
  unfold insertJob
  rw [lookupJob_append_none _ _ _ (lookupJob_eraseJob_self jobs i)]
  simp [lookupJob_cons]

theorem lookupJob_insertJob_ne (jobs : Jobs) (i j : Nat) (h : Handle)
    (hne : j ≠ i) :
    lookupJob (insertJob jobs i h) j = lookupJob jobs j := by
  unfold insertJob
  cases hl : lookupJob (eraseJob jobs i) j with
  | none =>
    rw [lookupJob_append_none _ _ _ hl]
    rw [lookupJob_eraseJob_ne jobs i j hne] at hl
    simp [lookupJob_cons, hl, Ne.symm hne, lookupJob_nil]
  | some v =>
    rw [lookupJob_append_some _ _ _ _ hl]
    rw [lookupJob_eraseJob_ne jobs i j hne] at hl
    exact hl.symm

theorem lookupJob_eq_none_iff (jobs : Jobs) (i : Nat) :
    lookupJob jobs i = none ↔ i ∉ jobKeys jobs := by
  induction jobs with
  | nil => simp [lookupJob, jobKeys]
  | cons p t ih =>
    by_cases hp : p.1 = i
    · simp [lookupJob_cons, hp, jobKeys]
    · simp [lookupJob_cons, hp, jobKeys] at ih ⊢
      exact ⟨fun hl => ⟨fun he => hp he.symm, ih.mp hl⟩, fun hm => ih.mpr hm.2⟩

theorem lookupJob_filter_key (P : Nat → Bool) (jobs : Jobs) (i : Nat)
    (hP : P i = true) :
    lookupJob (jobs.filter (fun p => P p.1)) i = lookupJob jobs i := by
  induction jobs with
  | nil => rfl
  | cons p t ih =>
    by_cases hp : p.1 = i
    · subst hp
      simp [List.filter_cons, hP, lookupJob_cons]
    · cases hq : P p.1
      · simpa [List.filter_cons, hq, lookupJob_cons, hp] using ih
      · simpa [List.filter_cons, hq, lookupJob_cons, hp] using ih

/-! Lemmas about a single registration decision. -/

theorem register_equal (parse : String → Option Sched) (jobs : Jobs) (r : Row)
    (h : Handle) (hl : lookupJob jobs r.id = some h) (hrow : h.row = r) :
    register parse jobs r = .ok (jobs, []) := by
  simp [register, hl, hrow]

theorem modCalls_id (old : Handle) (r : Row) (d : Sched) :
    ∀ c ∈ modCalls old r d, callId c = r.id := by
  intro c hc
  simp only [modCalls, List.mem_append, List.mem_singleton] at hc
  rcases hc with (rfl | hc) | hc
  · rfl
  · split at hc <;> simp_all [callId]
  · split at hc
    · simp_all [callId]
    · split at hc <;> simp_all [callId]

theorem register_frame (parse : String → Option Sched) (jobs : Jobs) (r : Row)
    (jobs' : Jobs) (cs : List Call) (j : Nat)
    (hr : register parse jobs r = .ok (jobs', cs)) (hj : j ≠ r.id) :
    lookupJob jobs' j = lookupJob jobs j := by
  unfold register at hr
  split at hr
  · split at hr
    · simp only [Except.ok.injEq, Prod.mk.injEq] at hr
      rw [← hr.1]
    · split at hr
      · exact absurd hr (by simp)
      · split at hr <;>
          (simp only [Except.ok.injEq, Prod.mk.injEq] at hr
           rw [← hr.1]
           exact lookupJob_eraseJob_ne jobs r.id j hj)
      · simp only [Except.ok.injEq, Prod.mk.injEq] at hr
        rw [← hr.1]
        exact lookupJob_insertJob_ne jobs r.id j _ hj
  · split at hr
    · exact absurd hr (by simp)
    · simp only [Except.ok.injEq, Prod.mk.injEq] at hr
      rw [← hr.1]
      exact lookupJob_insertJob_ne jobs r.id j _ hj
    · split at hr <;>
        (simp only [Except.ok.injEq, Prod.mk.injEq] at hr
         rw [← hr.1])

theorem register_calls_id (parse : String → Option Sched) (jobs : Jobs)
    (r : Row) (jobs' : Jobs) (cs : List Call)
    (hr : register parse jobs r = .ok (jobs', cs)) :
    ∀ c ∈ cs, callId c = r.id := by
  unfold register at hr
  split at hr
  · split at hr
    · simp only [Except.ok.injEq, Prod.mk.injEq] at hr
      rw [← hr.2]
      intro c hc
      exact absurd hc (List.not_mem_nil c)
    · split at hr
      · exact absurd hr (by simp)
      · split at hr <;>
          (simp only [Except.ok.injEq, Prod.mk.injEq] at hr
           rw [← hr.2]
           intro c hc
           fin_cases hc <;> rfl)
      · simp only [Except.ok.injEq, Prod.mk.injEq] at hr
        rw [← hr.2]
        exact modCalls_id _ r _
  · split at hr
    · exact absurd hr (by simp)
    · simp only [Except.ok.injEq, Prod.mk.injEq] at hr
      rw [← hr.2]
      intro c hc
      fin_cases hc
      rfl
    · split at hr <;>
        (simp only [Except.ok.injEq, Prod.mk.injEq] at hr
         rw [← hr.2]
         intro c hc)
      · fin_cases hc <;> rfl
      · exact absurd hc (List.not_mem_nil c)

theorem register_error_schedule (parse : String → Option Sched) (jobs : Jobs)
    (r : Row) (hr : register parse jobs r = .error ()) :
    jobSchedule parse r = .error () := by
  unfold register at hr
  split at hr
  · split at hr
    · exact absurd hr (by simp)
    · split at hr
      · rename_i e heq
        rw [heq]
      · split at hr <;> exact absurd hr (by simp)
      · exact absurd hr (by simp)
  · split at hr
    · rename_i e heq
      rw [heq]
    · exact absurd hr (by simp)
    · split at hr <;> exact absurd hr (by simp)

theorem register_quiet_post_err (parse : String → Option Sched) (jobs : Jobs)
    (r : Row) (hr : register parse jobs r = .error ()) :
    QuietAt parse jobs r := by
  have hs := register_error_schedule parse jobs r hr
  unfold QuietAt
  cases hl : lookupJob jobs r.id with
  | some h => exact Or.inr hs
  | none =>
    intro d hd
    rw [hs] at hd
    exact absurd hd (by simp)

theorem register_quiet_post_ok (parse : String → Option Sched) (jobs : Jobs)
    (r : Row) (jobs' : Jobs) (cs : List Call)
    (hr : register parse jobs r = .ok (jobs', cs)) :
    QuietAt parse jobs' r := by
  unfold register at hr
  split at hr
  · rename_i old hl
    split at hr
    · rename_i he
      simp only [Except.ok.injEq, Prod.mk.injEq] at hr
      unfold QuietAt
      rw [← hr.1, hl]
      exact Or.inl he.symm
    · split at hr
      · exact absurd hr (by simp)
      · rename_i _ hsch
        split at hr <;>
          (simp only [Except.ok.injEq, Prod.mk.injEq] at hr
           unfold QuietAt
           rw [← hr.1, lookupJob_eraseJob_self]
           intro d hd
           rw [hsch] at hd
           exact absurd hd (by simp))
      · rename_i d hsch
        simp only [Except.ok.injEq, Prod.mk.injEq] at hr
        unfold QuietAt
        rw [← hr.1, lookupJob_insertJob_self]
        exact Or.inl rfl
  · rename_i hl
    split at hr
    · exact absurd hr (by simp)
    · rename_i d hsch
      simp only [Except.ok.injEq, Prod.mk.injEq] at hr
      unfold QuietAt
      rw [← hr.1, lookupJob_insertJob_self]
      exact Or.inl rfl
    · rename_i hsch
      split at hr <;>
        (simp only [Except.ok.injEq, Prod.mk.injEq] at hr
         unfold QuietAt
         rw [← hr.1, hl]
         intro d hd
         rw [hsch] at hd
         exact absurd hd (by simp))

theorem register_quiet_run (parse : String → Option Sched) (jobs : Jobs)
    (r : Row) (hq : QuietAt parse jobs r) :
    register parse jobs r = .error () ∨
      ∃ cs, register parse jobs r = .ok (jobs, cs) ∧
        ∀ c ∈ cs, c.isSyncMutation = false := by
  unfold QuietAt at hq
  cases hl : lookupJob jobs r.id with
  | some h =>
    rw [hl] at hq
    by_cases he : r = h.row
    · right
      exact ⟨[], register_equal parse jobs r h hl he.symm, by simp⟩
    · rcases hq with hrow | herr
      · exact absurd hrow.symm he
      · left
        simp [register, hl, he, herr]
  | none =>
    rw [hl] at hq
    cases hs : jobSchedule parse r with
    | error e =>
      left
      cases e
      simp [register, hl, hs]
    | ok o =>
      cases o with
      | some d => exact absurd hs (hq d)
      | none =>
        right
        by_cases hen : r.enabled = true
        · refine ⟨[Call.addOneShot r.id r.name, Call.deleteRow r.id], ?_, ?_⟩
          · simp [register, hl, hs, hen]
          · intro c hc
            fin_cases hc <;> rfl
        · refine ⟨[], ?_, by simp⟩
          simp [register, hl, hs, hen]

/-! Lemmas about the row loop and the sweep of a refresh pass. -/

theorem refresh_jobs_eq (parse : String → Option Sched) (store : List Row)
    (jobs : Jobs) :
    refresh_jobs parse store jobs =
      ((refreshRows parse store jobs).1.filter
         (fun p => decide (p.1 ∈ store.map Row.id)),
       (refreshRows parse store jobs).2 ++
         (sweepIds (refreshRows parse store jobs).1
            (store.map Row.id)).map Call.removeJob) := rfl

theorem refreshRows_avoid (parse : String → Option Sched) (rows : List Row)
    (jobs jobsOut : Jobs) (cs : List Call) (i : Nat)
    (h : refreshRows parse rows jobs = (jobsOut, cs))
    (hi : i ∉ rows.map Row.id) :
    lookupJob jobsOut i = lookupJob jobs i ∧ ∀ c ∈ cs, callId c ≠ i := by
  induction rows generalizing jobs jobsOut cs with
  | nil =>
    simp only [refreshRows, Prod.mk.injEq] at h
    rw [← h.1, ← h.2]
    exact ⟨rfl, by intro c hc; exact absurd hc (List.not_mem_nil c)⟩
  | cons s t ih =>
    simp only [List.map_cons, List.mem_cons] at hi
    push_neg at hi
    unfold refreshRows at h
    split at h
    · rename_i jobs' cs' heq
      simp only [Prod.mk.injEq] at h
      have hrest := ih jobs' (refreshRows parse t jobs').1
        (refreshRows parse t jobs').2 rfl hi.2
      have hfr := register_frame parse jobs s jobs' cs' i heq hi.1
      constructor
      · rw [← h.1, hrest.1, hfr]
      · intro c hc
        rw [← h.2] at hc
        rcases List.mem_append.mp hc with hc | hc
        · have := register_calls_id parse jobs s jobs' cs' heq c hc
          rw [this]
          exact fun hcon => hi.1 hcon.symm
        · exact hrest.2 c hc
    · exact ih jobs jobsOut cs h hi.2

theorem quietAt_of_lookup_eq (parse : String → Option Sched) (j1 j2 : Jobs)
    (r : Row) (h : lookupJob j1 r.id = lookupJob j2 r.id)
    (hq : QuietAt parse j2 r) : QuietAt parse j1 r := by
  unfold QuietAt at hq ⊢
  rw [h]
  exact hq

theorem pass1_quiet (parse : String → Option Sched) (rows : List Row)
    (jobs jobsOut : Jobs) (cs : List Call)
    (hnd : (rows.map Row.id).Nodup)
    (h : refreshRows parse rows jobs = (jobsOut, cs)) :
    ∀ r ∈ rows, QuietAt parse jobsOut r := by
  induction rows generalizing jobs jobsOut cs with
  | nil =>
    intro r hr
    exact absurd hr (List.not_mem_nil r)
  | cons s t ih =>
    simp only [List.map_cons, List.nodup_cons] at hnd
    intro r hr
    unfold refreshRows at h
    split at h
    · rename_i jobs' cs' heq
      simp only [Prod.mk.injEq] at h
      rcases List.mem_cons.mp hr with rfl | hrt
      · have hpost := register_quiet_post_ok parse jobs r jobs' cs' heq
        have hav := refreshRows_avoid parse t jobs' (refreshRows parse t jobs').1
          (refreshRows parse t jobs').2 r.id rfl hnd.1
        refine quietAt_of_lookup_eq parse jobsOut jobs' r ?_ hpost
        rw [← h.1, hav.1]
      · have hq := ih jobs' (refreshRows parse t jobs').1
          (refreshRows parse t jobs').2 hnd.2 rfl r hrt
        refine quietAt_of_lookup_eq parse jobsOut _ r ?_ hq
        rw [← h.1]
    · rename_i e heq
      cases e
      rcases List.mem_cons.mp hr with rfl | hrt
      · have hpost := register_quiet_post_err parse jobs r heq
        have hav := refreshRows_avoid parse t jobs (refreshRows parse t jobs).1
          (refreshRows parse t jobs).2 r.id rfl hnd.1
        refine quietAt_of_lookup_eq parse jobsOut jobs r ?_ hpost
        have hjOut : jobsOut = (refreshRows parse t jobs).1 := by
          rw [h]
        rw [hjOut, hav.1]
      · exact ih jobs jobsOut cs hnd.2 h r hrt

theorem refreshRows_quiet_all (parse : String → Option Sched)
    (rows : List Row) (jobs : Jobs)
    (hq : ∀ r ∈ rows, QuietAt parse jobs r) :
    (refreshRows parse rows jobs).1 = jobs ∧
      ∀ c ∈ (refreshRows parse rows jobs).2, c.isSyncMutation = false := by
  induction rows with
  | nil => simp [refreshRows]
  | cons s t ih =>
    have hqs := hq s (List.mem_cons_self s t)
    have hrest := fun r hr => hq r (List.mem_cons_of_mem s hr)
    rcases register_quiet_run parse jobs s hqs with herr | ⟨cs, hok, hcs⟩
    · simp only [refreshRows, herr]
      exact ih hrest
    · simp only [refreshRows, hok]
      obtain ⟨h1, h2⟩ := ih hrest
      refine ⟨h1, ?_⟩
      intro c hc
      rcases List.mem_append.mp hc with hc | hc
      · exact hcs c hc
      · exact h2 c hc

theorem sweepIds_eq_nil (jobs : Jobs) (found : List Nat)
    (h : ∀ p ∈ jobs, p.1 ∈ found) : sweepIds jobs found = [] := by
  unfold sweepIds
  rw [List.filter_eq_nil_iff]
  intro i hi
  have hi' : i ∈ jobKeys jobs := (List.mem_dedup).mp hi
  obtain ⟨p, hp, rfl⟩ := List.mem_map.mp hi'
  simp [h p hp]

theorem refresh_jobs_quiet (parse : String → Option Sched) (store : List Row)
    (jobs : Jobs) (hnd : (store.map Row.id).Nodup) :
    ∀ r ∈ store, QuietAt parse (refresh_jobs parse store jobs).1 r := by
  intro r hr
  have hq := pass1_quiet parse store jobs (refreshRows parse store jobs).1
    (refreshRows parse store jobs).2 hnd rfl r hr
  refine quietAt_of_lookup_eq parse _ _ r ?_ hq
  rw [refresh_jobs_eq]
  refine lookupJob_filter_key (fun i => decide (i ∈ store.map Row.id)) _ r.id ?_
  simp only [decide_eq_true_eq]
  exact List.mem_map_of_mem Row.id hr

theorem refresh_jobs_keys (parse : String → Option Sched) (store : List Row)
    (jobs : Jobs) :
    ∀ p ∈ (refresh_jobs parse store jobs).1, p.1 ∈ store.map Row.id := by
  intro p hp
  rw [refresh_jobs_eq] at hp
  have h := List.mem_filter.mp hp
  simpa using h.2

/-- C1: with an unchanged job store (with its primary-key uniqueness) the
second reconciliation pass issues no `addRecurring`, `modify`,
`reschedule`, `pause`, `resume` or `remove` call to the scheduler engine;
a registration decision whose fresh row equals the stored handle's row
returns with no mutating call at all, and the end-of-pass removal sweep
removes nothing when every handle's id was seen in the pass. -/
theorem c1_second_pass_is_idempotent (parse : String → Option Sched)
    (store : List Row) (jobs0 : Jobs)
    (hnd : (store.map Row.id).Nodup) :
    (∀ c ∈ (refresh_jobs parse store (refresh_jobs parse store jobs0).1).2,
        c.isSyncMutation = false) ∧
    (∀ (jobs : Jobs) (r : Row) (hd : Handle), lookupJob jobs r.id = some hd →
        hd.row = r → register parse jobs r = .ok (jobs, [])) ∧
    (∀ js : Jobs, (∀ p ∈ js, p.1 ∈ store.map Row.id) →
        sweepIds js (store.map Row.id) = []) := by
  refine ⟨?_, ?_, ?_⟩
  · intro c hc
    have hquiet := refresh_jobs_quiet parse store jobs0 hnd
    have hrows := refreshRows_quiet_all parse store
      ((refresh_jobs parse store jobs0).1) hquiet
    have hkeys : ∀ p ∈ (refreshRows parse store
        ((refresh_jobs parse store jobs0).1)).1, p.1 ∈ store.map Row.id := by
      intro p hp
      rw [hrows.1] at hp
      exact refresh_jobs_keys parse store jobs0 p hp
    have hsw := sweepIds_eq_nil _ _ hkeys
    rw [refresh_jobs_eq] at hc
    rcases List.mem_append.mp hc with hc | hc
    · exact hrows.2 c hc
    · rw [hsw] at hc
      exact absurd hc (by simp)
  · intro jobs r hd hl hrow
    exact register_equal parse jobs r hd hl hrow
  · intro js hjs
    exact sweepIds_eq_nil js _ hjs

/-- C1 witness: the idempotence theorem applied to a concrete store
containing a recurring job, a one-off request, a disabled schedule-less
row and a malformed row. -/
theorem c1_witness :
    (∀ c ∈ (refresh_jobs demoParse demoStore
        (refresh_jobs demoParse demoStore []).1).2,
        c.isSyncMutation = false) ∧
    (∀ (jobs : Jobs) (r : Row) (hd : Handle), lookupJob jobs r.id = some hd →
        hd.row = r → register demoParse jobs r = .ok (jobs, [])) ∧
    (∀ js : Jobs, (∀ p ∈ js, p.1 ∈ demoStore.map Row.id) →
        sweepIds js (demoStore.map Row.id) = []) :=
  c1_second_pass_is_idempotent demoParse demoStore [] (by decide)

/-! Lemmas about particular rows travelling through a pass. -/

theorem lookupJob_filter_none (q : Nat × Handle → Bool) (js : Jobs) (i : Nat)
    (h : lookupJob js i = none) : lookupJob (js.filter q) i = none := by
  rw [lookupJob_eq_none_iff] at h ⊢
  intro hmem
  obtain ⟨p, hp, rfl⟩ := List.mem_map.mp hmem
  exact h (List.mem_map_of_mem Prod.fst (List.mem_of_mem_filter hp))

theorem filter_eq_nil_of_callId_ne (cs : List Call) (i : Nat) (target : Call)
    (hne : ∀ c ∈ cs, callId c ≠ i) (ht : callId target = i) :
    cs.filter (fun c => decide (c = target)) = [] := by
  rw [List.filter_eq_nil_iff]
  intro c hc
  simp only [decide_eq_true_eq]
  intro hcon
  exact hne c hc (by rw [hcon, ht])

theorem register_oneshot (parse : String → Option Sched) (jobs : Jobs)
    (r : Row) (hl : lookupJob jobs r.id = none) (hsch : r.schedule = none)
    (hen : r.enabled = true) :
    register parse jobs r =
      .ok (jobs, [Call.addOneShot r.id r.name, Call.deleteRow r.id]) := by
  have hs : jobSchedule parse r = .ok none := by
    simp [jobSchedule, hsch]
  simp [register, hl, hs, hen]

theorem refreshRows_oneshot (parse : String → Option Sched) (rows : List Row)
    (jobs : Jobs) (r : Row)
    (hnd : (rows.map Row.id).Nodup) (hmem : r ∈ rows)
    (hl : lookupJob jobs r.id = none) (hsch : r.schedule = none)
    (hen : r.enabled = true) :
    lookupJob (refreshRows parse rows jobs).1 r.id = none ∧
    ((refreshRows parse rows jobs).2.filter
        (fun c => decide (c = Call.addOneShot r.id r.name))).length = 1 ∧
    ((refreshRows parse rows jobs).2.filter
        (fun c => decide (c = Call.deleteRow r.id))).length = 1 := by
  induction rows generalizing jobs with
  | nil => exact absurd hmem (List.not_mem_nil r)
  | cons s t ih =>
    simp only [List.map_cons, List.nodup_cons] at hnd
    rcases List.mem_cons.mp hmem with rfl | hmt
    · have hreg := register_oneshot parse jobs r hl hsch hen
      simp only [refreshRows, hreg]
      have hav := refreshRows_avoid parse t jobs (refreshRows parse t jobs).1
        (refreshRows parse t jobs).2 r.id rfl hnd.1
      refine ⟨by rw [hav.1, hl], ?_, ?_⟩
      · rw [List.filter_append, filter_eq_nil_of_callId_ne _ r.id
          (Call.addOneShot r.id r.name) hav.2 rfl]
        simp
      · rw [List.filter_append, filter_eq_nil_of_callId_ne _ r.id
          (Call.deleteRow r.id) hav.2 rfl]
        simp
    · have hrid : r.id ∈ t.map Row.id := List.mem_map_of_mem Row.id hmt
      have hsid : s.id ≠ r.id := fun he => hnd.1 (he ▸ hrid)
      unfold refreshRows
      cases hreg : register parse jobs s with
      | error e =>
        cases e
        exact ih jobs hnd.2 hmt hl
      | ok res =>
        obtain ⟨jobs', cs'⟩ := res
        simp only
        have hfr := register_frame parse jobs s jobs' cs' r.id hreg
          (fun he => hsid he.symm)
        have hrec := ih jobs' hnd.2 hmt (by rw [hfr, hl])
        have hcs' : ∀ c ∈ cs', callId c ≠ r.id := by
          intro c hc
          rw [register_calls_id parse jobs s jobs' cs' hreg c hc]
          exact hsid
        refine ⟨hrec.1, ?_, ?_⟩
        · rw [List.filter_append, filter_eq_nil_of_callId_ne _ r.id
            (Call.addOneShot r.id r.name) hcs' rfl]
          simpa using hrec.2.1
        · rw [List.filter_append, filter_eq_nil_of_callId_ne _ r.id
            (Call.deleteRow r.id) hcs' rfl]
          simpa using hrec.2.2

theorem sweep_map_filter_nil (gone : List Nat) (target : Call)
    (h : ∀ i, Call.removeJob i ≠ target) :
    (gone.map Call.removeJob).filter (fun c => decide (c = target)) = [] := by
  rw [List.filter_eq_nil_iff]
  intro c hc
  obtain ⟨i, _, rfl⟩ := List.mem_map.mp hc
  simp [h i]

theorem refresh_jobs_oneshot (parse : String → Option Sched)
    (store : List Row) (jobs : Jobs) (r : Row)
    (hnd : (store.map Row.id).Nodup) (hmem : r ∈ store)
    (hl : lookupJob jobs r.id = none) (hsch : r.schedule = none)
    (hen : r.enabled = true) :
    lookupJob (refresh_jobs parse store jobs).1 r.id = none ∧
    ((refresh_jobs parse store jobs).2.filter
        (fun c => decide (c = Call.addOneShot r.id r.name))).length = 1 ∧
    ((refresh_jobs parse store jobs).2.filter
        (fun c => decide (c = Call.deleteRow r.id))).length = 1 := by
  have hm := refreshRows_oneshot parse store jobs r hnd hmem hl hsch hen
  refine ⟨?_, ?_, ?_⟩
  · rw [refresh_jobs_eq]
    exact lookupJob_filter_none _ _ _ hm.1
  · rw [refresh_jobs_eq]
    simp only [List.filter_append, List.length_append]
    rw [sweep_map_filter_nil _ _ (fun i => by simp)]
    simpa using hm.2.1
  · rw [refresh_jobs_eq]
    simp only [List.filter_append, List.length_append]
    rw [sweep_map_filter_nil _ _ (fun i => by simp)]
    simpa using hm.2.2

theorem refresh_jobs_absent (parse : String → Option Sched)
    (store : List Row) (jobs : Jobs) (i : Nat)
    (hid : i ∉ store.map Row.id) (hl : lookupJob jobs i = none) :
    (∀ c ∈ (refresh_jobs parse store jobs).2, callId c ≠ i) ∧
      i ∉ jobKeys (refresh_jobs parse store jobs).1 := by
  have hav := refreshRows_avoid parse store jobs (refreshRows parse store jobs).1
    (refreshRows parse store jobs).2 i rfl hid
  have hnone : lookupJob (refreshRows parse store jobs).1 i = none := by
    rw [hav.1, hl]
  constructor
  · intro c hc
    rw [refresh_jobs_eq] at hc
    rcases List.mem_append.mp hc with hc | hc
    · exact hav.2 c hc
    · obtain ⟨j, hj, rfl⟩ := List.mem_map.mp hc
      have hjk : j ∈ jobKeys (refreshRows parse store jobs).1 := by
        unfold sweepIds at hj
        exact (List.mem_dedup).mp (List.mem_of_mem_filter hj)
      intro hcon
      have hji : j = i := hcon
      exact (lookupJob_eq_none_iff _ _).mp hnone (hji ▸ hjk)
  · rw [refresh_jobs_eq]
    intro hmem
    exact (lookupJob_eq_none_iff _ _).mp
      (lookupJob_filter_none _ _ _ hnone) hmem

/-- C3: a row with no schedule, enabled, and no existing handle causes
exactly one one-off dispatch (`add_job` without a trigger) followed by
deletion of its row, stores no handle; with the deletion applied, the
resulting store has no row with that id, and a subsequent pass over it
issues no call for that id and still stores no handle for it. -/
theorem c3_one_shot_semantics (parse : String → Option Sched)
    (store : List Row) (jobs : Jobs) (r : Row)
    (hnd : (store.map Row.id).Nodup) (hmem : r ∈ store)
    (hl : lookupJob jobs r.id = none) (hsch : r.schedule = none)
    (hen : r.enabled = true) :
    register parse jobs r =
      .ok (jobs, [Call.addOneShot r.id r.name, Call.deleteRow r.id]) ∧
    ((refresh_jobs parse store jobs).2.filter
        (fun c => decide (c = Call.addOneShot r.id r.name))).length = 1 ∧
    ((refresh_jobs parse store jobs).2.filter
        (fun c => decide (c = Call.deleteRow r.id))).length = 1 ∧
    lookupJob (refresh_jobs parse store jobs).1 r.id = none ∧
    r.id ∉ (applyDeletes (refresh_jobs parse store jobs).2 store).map Row.id ∧
    (∀ c ∈ (refresh_jobs parse
        (applyDeletes (refresh_jobs parse store jobs).2 store)
        (refresh_jobs parse store jobs).1).2, callId c ≠ r.id) ∧
    r.id ∉ jobKeys (refresh_jobs parse
        (applyDeletes (refresh_jobs parse store jobs).2 store)
        (refresh_jobs parse store jobs).1).1 := by
  obtain ⟨h1, h2, h3⟩ := refresh_jobs_oneshot parse store jobs r hnd hmem hl hsch hen
  have hregd := register_oneshot parse jobs r hl hsch hen
  have hdel : Call.deleteRow r.id ∈ (refresh_jobs parse store jobs).2 := by
    have hfne : ((refresh_jobs parse store jobs).2.filter
        (fun c => decide (c = Call.deleteRow r.id))) ≠ [] := by
      intro hnil
      rw [hnil] at h3
      simp at h3
    obtain ⟨c, hcf⟩ := List.exists_mem_of_ne_nil _ hfne
    have hcc := List.mem_filter.mp hcf
    have : c = Call.deleteRow r.id := by simpa using hcc.2
    rw [← this]
    exact hcc.1
  have habsent :
      r.id ∉ (applyDeletes (refresh_jobs parse store jobs).2 store).map Row.id := by
    intro hcon
    obtain ⟨x, hx, hxid⟩ := List.mem_map.mp hcon
    have hxf := List.mem_filter.mp hx
    have hnot : Call.deleteRow x.id ∉ (refresh_jobs parse store jobs).2 := by
      simpa [applyDeletes] using hxf.2
    rw [hxid] at hnot
    exact hnot hdel
  have habs2 := refresh_jobs_absent parse
    (applyDeletes (refresh_jobs parse store jobs).2 store)
    (refresh_jobs parse store jobs).1 r.id habsent h1
  exact ⟨hregd, h2, h3, h1, habsent, habs2.1, habs2.2⟩

/-- C3 witness: the one-shot theorem applied to the concrete store with the
enabled schedule-less row `rowShot`. -/
theorem c3_witness :
    register demoParse [] rowShot =
      .ok ([], [Call.addOneShot rowShot.id rowShot.name,
                Call.deleteRow rowShot.id]) ∧
    ((refresh_jobs demoParse demoStore []).2.filter
        (fun c => decide (c = Call.addOneShot rowShot.id rowShot.name))).length = 1 ∧
    ((refresh_jobs demoParse demoStore []).2.filter
        (fun c => decide (c = Call.deleteRow rowShot.id))).length = 1 ∧
    lookupJob (refresh_jobs demoParse demoStore []).1 rowShot.id = none ∧
    rowShot.id ∉ (applyDeletes (refresh_jobs demoParse demoStore []).2
        demoStore).map Row.id ∧
    (∀ c ∈ (refresh_jobs demoParse
        (applyDeletes (refresh_jobs demoParse demoStore []).2 demoStore)
        (refresh_jobs demoParse demoStore []).1).2, callId c ≠ rowShot.id) ∧
    rowShot.id ∉ jobKeys (refresh_jobs demoParse
        (applyDeletes (refresh_jobs demoParse demoStore []).2 demoStore)
        (refresh_jobs demoParse demoStore []).1).1 :=
  c3_one_shot_semantics demoParse demoStore [] rowShot (by decide) (by decide)
    (by decide) (by decide) (by decide)

/-- C4 counterexample: when the deletion of the one-shot row failed and the
row lingers, the next reconciliation pass issues the one-off dispatch again
— the registration logic does not detect the row as already handled, so the
job runs a second time. -/
theorem c4_counterexample :
    Call.addOneShot 2 "oneshot" ∈
      (refresh_jobs demoParse [rowShot]
        (refresh_jobs demoParse [rowShot] []).1).2 := by
  decide

/-- C4 (amended): a lingering one-shot row whose deletion failed is not
detected as handled; every later pass that still reads the row issues
exactly one fresh one-off dispatch of the job and retries the deletion. -/
theorem c4_lingering_one_shot_redispatches (parse : String → Option Sched)
    (store : List Row) (jobs : Jobs) (r : Row)
    (hnd : (store.map Row.id).Nodup) (hmem : r ∈ store)
    (hl : lookupJob jobs r.id = none) (hsch : r.schedule = none)
    (hen : r.enabled = true) :
    ((refresh_jobs parse store (refresh_jobs parse store jobs).1).2.filter
        (fun c => decide (c = Call.addOneShot r.id r.name))).length = 1 ∧
    ((refresh_jobs parse store (refresh_jobs parse store jobs).1).2.filter
        (fun c => decide (c = Call.deleteRow r.id))).length = 1 := by
  have h1 := refresh_jobs_oneshot parse store jobs r hnd hmem hl hsch hen
  have h2 := refresh_jobs_oneshot parse store (refresh_jobs parse store jobs).1
    r hnd hmem h1.1 hsch hen
  exact ⟨h2.2.1, h2.2.2⟩

/-- C4 witness: the amended redispatch theorem at the concrete lingering
store. -/
theorem c4_witness :
    ((refresh_jobs demoParse [rowShot]
        (refresh_jobs demoParse [rowShot] []).1).2.filter
        (fun c => decide (c = Call.addOneShot rowShot.id rowShot.name))).length = 1 ∧
    ((refresh_jobs demoParse [rowShot]
        (refresh_jobs demoParse [rowShot] []).1).2.filter
        (fun c => decide (c = Call.deleteRow rowShot.id))).length = 1 :=
  c4_lingering_one_shot_redispatches demoParse [rowShot] [] rowShot
    (by decide) (by decide) (by decide) (by decide) (by decide)

/-- C5 counterexample: flipping only the `enabled` flag of a registered
recurring job from true to false issues `modify_job` in addition to
`pause_job` — `modify_job` is another mutating scheduler-engine call, so
the pass does not consist of exactly one `pause` call. -/
theorem c5_counterexample :
    register demoParse [(1, hCron)] rowCronOff =
      .ok ([(1, ⟨rowCronOff, [("hour", "sch")]⟩)],
        [Call.modifyJob 1, Call.pauseJob 1]) ∧
    (Call.modifyJob 1).isSyncMutation = true := by
  exact ⟨by decide, rfl⟩

/-- C5 (amended): flipping only the `enabled` flag of an existing recurring
registration issues exactly two mutating calls, an unconditional
`modify_job` followed by exactly one `pause_job` (true→false) or exactly
one `resume_job` (false→true), and no `reschedule_job`. -/
theorem c5_enabled_toggle_calls (parse : String → Option Sched) (jobs : Jobs)
    (r : Row) (h : Handle) (d : Sched)
    (hl : lookupJob jobs r.id = some h)
    (hrow : h.row = { r with enabled := !r.enabled })
    (hs : jobSchedule parse r = .ok (some d))
    (hcache : h.sched = d) :
    register parse jobs r =
      .ok (insertJob jobs r.id ⟨r, d⟩,
        [Call.modifyJob r.id] ++
          (if r.enabled then [Call.resumeJob r.id]
           else [Call.pauseJob r.id])) := by
  have hne : ¬r = h.row := by
    rw [hrow]
    intro hcon
    have hb : r.enabled = !r.enabled := congrArg Row.enabled hcon
    cases hre : r.enabled <;> rw [hre] at hb <;> simp at hb
  simp only [register, hl, if_neg hne, hs]
  have hold : h.row.enabled = !r.enabled := by rw [hrow]
  unfold modCalls
  rw [if_pos hcache, hold]
  cases hre : r.enabled <;> simp

/-- C5 witness: the toggle theorem at the concrete registered job `rowCron`
with its fresh row disabled. -/
theorem c5_witness :
    register demoParse [(1, hCron)] rowCronOff =
      .ok (insertJob [(1, hCron)] rowCronOff.id
          ⟨rowCronOff, [("hour", "sch")]⟩,
        [Call.modifyJob rowCronOff.id] ++
          (if rowCronOff.enabled then [Call.resumeJob rowCronOff.id]
           else [Call.pauseJob rowCronOff.id])) :=
  c5_enabled_toggle_calls demoParse [(1, hCron)] rowCronOff hCron
    [("hour", "sch")] (by decide) (by decide) (by decide) (by decide)

/-- C10: a malformed fresh row (schedule JSON fails to parse) for a job
whose id has a live handle leaves the controller state for that id exactly
as it was: the handle survives the pass unchanged and no engine or store
call carrying that id is issued — in particular the removal sweep does not
treat the job as deleted, because the id is recorded as seen before
registration is attempted. -/
theorem c10_malformed_row_keeps_live_job (parse : String → Option Sched)
    (store : List Row) (jobs : Jobs) (r : Row) (h : Handle)
    (hnd : (store.map Row.id).Nodup) (hmem : r ∈ store)
    (hl : lookupJob jobs r.id = some h) (hne : r ≠ h.row)
    (herr : jobSchedule parse r = .error ()) :
    lookupJob (refresh_jobs parse store jobs).1 r.id = some h ∧
      ∀ c ∈ (refresh_jobs parse store jobs).2, callId c ≠ r.id := by
  have hfound : r.id ∈ store.map Row.id := List.mem_map_of_mem Row.id hmem
  have hmain : lookupJob (refreshRows parse store jobs).1 r.id = some h ∧
      ∀ c ∈ (refreshRows parse store jobs).2, callId c ≠ r.id := by
    clear hfound
    induction store generalizing jobs with
    | nil => exact absurd hmem (List.not_mem_nil r)
    | cons s t ih =>
      simp only [List.map_cons, List.nodup_cons] at hnd
      rcases List.mem_cons.mp hmem with rfl | hmt
      · have hreg : register parse jobs r = .error () := by
          simp [register, hl, hne, herr]
        simp only [refreshRows, hreg]
        have hav := refreshRows_avoid parse t jobs
          (refreshRows parse t jobs).1 (refreshRows parse t jobs).2 r.id rfl hnd.1
        exact ⟨by rw [hav.1, hl], hav.2⟩
      · have hrid : r.id ∈ t.map Row.id := List.mem_map_of_mem Row.id hmt
        have hsid : s.id ≠ r.id := fun he => hnd.1 (he ▸ hrid)
        unfold refreshRows
        cases hreg : register parse jobs s with
        | error e =>
          cases e
          exact ih jobs hnd.2 hmt hl
        | ok res =>
          obtain ⟨jobs', cs'⟩ := res
          simp only
          have hfr := register_frame parse jobs s jobs' cs' r.id hreg
            (fun he => hsid he.symm)
          have hrec := ih jobs' hnd.2 hmt (by rw [hfr, hl])
          refine ⟨hrec.1, ?_⟩
          intro c hc
          rcases List.mem_append.mp hc with hc | hc
          · rw [register_calls_id parse jobs s jobs' cs' hreg c hc]
            exact hsid
          · exact hrec.2 c hc
  constructor
  · rw [refresh_jobs_eq]
    rw [lookupJob_filter_key (fun i => decide (i ∈ store.map Row.id)) _ r.id
      (by simpa using hfound)]
    exact hmain.1
  · intro c hc
    rw [refresh_jobs_eq] at hc
    rcases List.mem_append.mp hc with hc | hc
    · exact hmain.2 c hc
    · obtain ⟨i, hi, rfl⟩ := List.mem_map.mp hc
      have hnf : i ∉ store.map Row.id := by
        unfold sweepIds at hi
        simpa using (List.mem_filter.mp hi).2
      intro hcon
      have hji : i = r.id := hcon
      exact hnf (hji ▸ hfound)

/-- C10 witness: the malformed-row theorem at a concrete store whose only
row is a malformed update of the live job 5. -/
theorem c10_witness :
    lookupJob (refresh_jobs demoParse [rowLiveBad] [(5, hLive)]).1
        rowLiveBad.id = some hLive ∧
      ∀ c ∈ (refresh_jobs demoParse [rowLiveBad] [(5, hLive)]).2,
        callId c ≠ rowLiveBad.id :=
  c10_malformed_row_keeps_live_job demoParse [rowLiveBad] [(5, hLive)]
    rowLiveBad hLive (by decide) (by decide) (by decide) (by decide) (by decide)

/-- C2 counterexample: a failed store read during a periodic refresh is not
skipped and retried — the poll loop catches only `KeyboardInterrupt` and
`SystemExit`, so the exception propagates: the loop ends without processing
the following tick and without shutting the engine down. -/
theorem c2_counterexample :
    run demoParse false []
      [⟨false, false, .error ()⟩, ⟨false, false, .ok []⟩] =
      ([], .crashed, [.crashEv]) := by
  decide

/-- C2 (amended): a store outage during a periodic refresh is fatal: when
an iteration's read of the `scheduled_job` table raises and no keyboard
interrupt arrived, the exception propagates out of the poll loop — the
in-memory handle map is unchanged at that point, no retry happens on a
later interval, and the engine is never shut down. -/
theorem c2_store_outage_crashes_loop (parse : String → Option Sched)
    (jobs : Jobs) (t : TickInput) (rest : List TickInput)
    (hint : t.interrupt = false) (hread : t.read = .error ()) :
    run parse false jobs (t :: rest) = (jobs, .crashed, [.crashEv]) := by
  obtain ⟨f, i, rd⟩ := t
  simp only at hint hread
  subst hint
  subst hread
  simp [run]

/-- C2 witness: the store-outage theorem at a concrete loop state with a
registered job and one failing tick. -/
theorem c2_witness :
    run demoParse false [(1, hCron)] [⟨true, false, .error ()⟩] =
      ([(1, hCron)], .crashed, [.crashEv]) :=
  c2_store_outage_crashes_loop demoParse [(1, hCron)]
    ⟨true, false, .error ()⟩ [] rfl rfl

/-- C9 counterexample: the stop flag is checked at the top of the loop
before the sleep, not between sleep and refresh: a flag set during the
first iteration's sleep does not prevent that iteration's reconciliation
pass — a full pass (here registering job 1 with the engine) still runs
before the loop exits at the next check. -/
theorem c9_counterexample :
    run demoParse false []
      [⟨true, false, .ok [rowCron]⟩, ⟨false, false, .ok []⟩] =
      ([(1, ⟨rowCron, [("hour", "sch")]⟩)], .cleanStop,
        [.passEv [Call.addCron 1 [("hour", "sch")] false], .shutdownEv]) := by
  decide

/-- C9 (amended): the stop flag is checked at the top of each iteration,
before the sleep; a flag set from another thread during an iteration's
sleep lets that iteration still complete its reconciliation pass, after
which the loop exits at the next check and the engine is shut down exactly
once, regardless of any further pending iterations. -/
theorem c9_stop_flag_one_more_pass (parse : String → Option Sched)
    (jobs : Jobs) (store : List Row) (t : TickInput) (rest : List TickInput)
    (hflag : t.flagDuringSleep = true) (hint : t.interrupt = false)
    (hread : t.read = .ok store) :
    run parse false jobs (t :: rest) =
      ((refresh_jobs parse store jobs).1, .cleanStop,
        [.passEv (refresh_jobs parse store jobs).2, .shutdownEv]) := by
  obtain ⟨f, i, rd⟩ := t
  simp only at hflag hint hread
  subst hflag
  subst hint
  subst hread
  simp [run]

/-- C9 witness: the stop-flag theorem at a concrete tick whose sleep sets
the flag while the store holds two fresh rows. -/
theorem c9_witness :
    run demoParse false [] [⟨true, false, .ok [rowCron, rowShot]⟩] =
      ((refresh_jobs demoParse [rowCron, rowShot] []).1, .cleanStop,
        [.passEv (refresh_jobs demoParse [rowCron, rowShot] []).2,
         .shutdownEv]) :=
  c9_stop_flag_one_more_pass demoParse [] [rowCron, rowShot]
    ⟨true, false, .ok [rowCron, rowShot]⟩ [] rfl rfl rfl

/-- C8 counterexample: the failure log line of a dispatch carries the job
name and the start time, not the elapsed time: a run raising with start 5
and end 9 logs `failed name 5`, whose elapsed-time component is `none`
(elapsed time appears only in the success log line). -/
theorem c8_counterexample :
    jobRun demoParse (fun _ _ _ => .error ()) rowCron 5 9 =
      .failed rowCron.name 5 ∧
    (jobRun demoParse (fun _ _ _ => .error ()) rowCron 5 9).elapsedOf =
      none := by
  exact ⟨rfl, rfl⟩

/-- C8 (amended): dispatch is fully contained: whenever resolution,
construction or execution raises, the callback returns normally with
exactly the failure log line carrying the job name and the start time (not
the elapsed time), and the firing of every other callback before or after
it is unaffected. -/
theorem c8_dispatch_contained (parse : String → Option Sched)
    (exec : String → String → Sched → Except Unit Unit) (r : Row)
    (s e : Nat) (hfail : runBody parse exec r = .error ()) :
    jobRun parse exec r s e = .failed r.name s ∧
    ∀ pre post : List (Row × Nat × Nat),
      fireAll parse exec (pre ++ (r, s, e) :: post) =
        fireAll parse exec pre ++
          .failed r.name s :: fireAll parse exec post := by
  have h1 : jobRun parse exec r s e = .failed r.name s := by
    unfold jobRun
    rw [hfail]
  refine ⟨h1, ?_⟩
  intro pre post
  unfold fireAll
  rw [List.map_append, List.map_cons]
  simp only
  rw [h1]

/-- C8 witness: the containment theorem at a concrete always-raising
implementation, with neighbouring firings present. -/
theorem c8_witness :
    jobRun demoParse (fun _ _ _ => .error ()) rowShot 3 10 =
      .failed rowShot.name 3 ∧
    fireAll demoParse (fun _ _ _ => .error ())
        ([(rowCron, 0, 1)] ++ (rowShot, 3, 10) :: [(rowIdle, 4, 6)]) =
      fireAll demoParse (fun _ _ _ => .error ()) [(rowCron, 0, 1)] ++
        .failed rowShot.name 3 ::
          fireAll demoParse (fun _ _ _ => .error ()) [(rowIdle, 4, 6)] :=
  ⟨(c8_dispatch_contained demoParse (fun _ _ _ => .error ()) rowShot 3 10
      rfl).1,
   (c8_dispatch_contained demoParse (fun _ _ _ => .error ()) rowShot 3 10
      rfl).2 [(rowCron, 0, 1)] [(rowIdle, 4, 6)]⟩

theorem zombie_upd_foldl (eids : List Nat) (table : List ExecRow) :
    eids.foldl (fun t e => update_execution t e .failed zombieDesc) table =
      table.map (fun r => if r.eid ∈ eids then
        { r with state := .failed, description := zombieDesc } else r) := by
  induction eids generalizing table with
  | nil =>
    have hfun : (fun r : ExecRow => if r.eid ∈ ([] : List Nat) then
        { r with state := ExecState.failed, description := zombieDesc }
        else r) = fun r => r := by
      funext r
      simp
    simp [hfun]
  | cons e es ih =>
    simp only [List.foldl_cons]
    rw [ih]
    unfold update_execution
    rw [List.map_map]
    congr 1
    funext r
    simp only [Function.comp]
    by_cases h : r.eid = e
    · rw [if_pos h]
      simp only [List.mem_cons, h, true_or, if_pos]
      split <;> rfl
    · rw [if_neg h]
      by_cases hm : r.eid ∈ es
      · simp [hm, List.mem_cons]
      · simp [hm, List.mem_cons, h]

/-- C6: the startup recovery sweep runs once before the engine is started,
and it sets state `Failed` with the fixed description
`marking zombie run as failed` on exactly the rows whose state is
`Running`, leaving every other row unchanged in all fields. -/
theorem c6_zombie_recovery (table : List ExecRow)
    (hnd : (table.map ExecRow.eid).Nodup) :
    (start_scheduler table).1 =
      table.map (fun r => if r.state = .running then
        { r with state := .failed, description := zombieDesc } else r) ∧
    (start_scheduler table).2 = [.zombieSweep, .engineStart] := by
  refine ⟨?_, rfl⟩
  show fix_zombies table = _
  unfold fix_zombies
  rw [zombie_upd_foldl]
  apply List.map_congr_left
  intro r hr
  by_cases h : r.state = .running
  · rw [if_pos h, if_pos]
    unfold runningEids
    refine List.mem_map_of_mem ExecRow.eid ?_
    rw [List.mem_filter]
    exact ⟨hr, by simp [h]⟩
  · rw [if_neg h, if_neg]
    intro hmem
    unfold runningEids at hmem
    obtain ⟨x, hx, hxid⟩ := List.mem_map.mp hmem
    have hxt := List.mem_of_mem_filter hx
    have hxs : x.state = .running := by
      simpa using (List.mem_filter.mp hx).2
    have hxr : x = r := List.inj_on_of_nodup_map hnd hxt hr hxid
    rw [hxr] at hxs
    exact h hxs

/-- C6 witness: the recovery theorem at the spec's example table — a
running row 1 and a succeeded row 2. -/
theorem c6_witness :
    (start_scheduler demoExecs).1 =
      demoExecs.map (fun r => if r.state = .running then
        { r with state := .failed, description := zombieDesc } else r) ∧
    (start_scheduler demoExecs).2 = [.zombieSweep, .engineStart] :=
  c6_zombie_recovery demoExecs (by decide)

/-- C7 counterexample: with two zombie rows and the update of row 1
raising, the sweep does not continue with the remaining rows: the error
propagates with the table unchanged, so row 2 is still `Running` and
startup is blocked — contradicting best-effort per-row recovery. -/
theorem c7_counterexample :
    fix_zombiesE (fun e => e == 1) demoZombies = .error demoZombies ∧
    demoZombies[1]? = some ⟨2, 1, ExecState.running, "", 0⟩ := by
  exact ⟨by decide, rfl⟩

theorem zombieSweepGo_prefix (updFails : Nat → Bool) (post : List Nat)
    (e : Nat) (he : updFails e = true) :
    ∀ (pre : List Nat) (t : List ExecRow), (∀ x ∈ pre, updFails x = false) →
      zombieSweepGo updFails (pre ++ e :: post) t =
        .error (pre.foldl
          (fun t x => update_execution t x .failed zombieDesc) t) := by
  intro pre
  induction pre with
  | nil =>
    intro t _
    simp [zombieSweepGo, he]
  | cons x xs ih =>
    intro t hpre
    have hx : updFails x = false := hpre x (List.mem_cons_self x xs)
    simp only [List.cons_append, zombieSweepGo, hx, List.foldl_cons,
      Bool.false_eq_true, if_false]
    exact ih _ (fun y hy => hpre y (List.mem_cons_of_mem x hy))

/-- C7 (amended): a failure updating one execution row is not contained:
the sweep stops at the first failing row — rows before it are corrected,
the failing row and all later zombie rows are left untouched, and the
error propagates out of `fix_zombies`, so `start_scheduler` does not
proceed. -/
theorem c7_update_failure_aborts_sweep (updFails : Nat → Bool)
    (table : List ExecRow) (pre : List Nat) (e : Nat) (post : List Nat)
    (hsplit : runningEids table = pre ++ e :: post)
    (hpre : ∀ x ∈ pre, updFails x = false) (he : updFails e = true) :
    fix_zombiesE updFails table =
      .error (pre.foldl
        (fun t x => update_execution t x .failed zombieDesc) table) := by
  unfold fix_zombiesE
  rw [hsplit]
  exact zombieSweepGo_prefix updFails post e he pre table hpre

/-- C7 witness: the abort theorem at a three-zombie table whose second
update fails. -/
theorem c7_witness :
    fix_zombiesE (fun e => e == 2) demoZombies3 =
      .error ([1].foldl
        (fun t x => update_execution t x .failed zombieDesc) demoZombies3) :=
  c7_update_failure_aborts_sweep (fun e => e == 2) demoZombies3 [1] 2 [3]
    (by decide) (by decide) rfl

end CdrScheduler
